import Mathlib

/-!
Shallow embedding of the anti-detection movement/timing generator of
`AdvancedAntiDetection` (files `advanced_features.py` and
`raven_autoclicker_complete.py`, which contain the same class, plus the
ease-in-out copy in `plugin_system.py`).

Randomness and the wall clock are made explicit: every `random.*` draw and
every `time.time()` reading becomes a parameter of the embedded function.
Coordinate arithmetic done by Python on floats is embedded over `ℚ` where the
source only uses field operations, and over `ℝ` for the algorithms that call
`math.sin` / `math.cos` (drift movement and the timing functions).
Python's `int(...)` truncation toward zero becomes `pyInt` / `pyIntR`.
A call that would raise `ZeroDivisionError` in Python is embedded as `none`.
The `time.sleep` side effects of `_hesitation_movement` are tracked by
returning, next to the waypoint list, the list of sleep durations performed.
-/

namespace RavenAutoClicker

/-- Screen coordinate pair, Python `Tuple[int, int]`. -/
abbrev Point := ℤ × ℤ

/-- Python `int(...)` truncation toward zero, on exact rationals. -/
def pyInt (q : ℚ) : ℤ := if 0 ≤ q then ⌊q⌋ else ⌈q⌉

/-- Python `int(...)` truncation toward zero, on reals (for the `math.sin`-based
drift algorithm). -/
noncomputable def pyIntR (x : ℝ) : ℤ := if 0 ≤ x then ⌊x⌋ else ⌈x⌉

/-- Python float modulo `a % b`; for `b > 0` it returns `a - b * ⌊a / b⌋ ∈ [0, b)`. -/
noncomputable def pyFloatMod (a b : ℝ) : ℝ := a - b * ⌊a / b⌋

/-- Componentwise closeness of integer points: `w` is within `tol` pixels of `p`
on each axis. -/
def closeTo (w p : Point) (tol : ℤ) : Prop := |w.1 - p.1| ≤ tol ∧ |w.2 - p.2| ≤ tol

/-- Control points of `_bezier_movement`:
`control1 = (mid_x + offset_x, mid_y + offset_y)` and
`control2 = (mid_x - offset_x/2, mid_y - offset_y/2)`. -/
def bezier_controls (a b : Point) (offX offY : ℚ) : (ℚ × ℚ) × (ℚ × ℚ) :=
  (((( a.1 : ℚ) + (b.1 : ℚ)) / 2 + offX, ((a.2 : ℚ) + (b.2 : ℚ)) / 2 + offY),
   ((( a.1 : ℚ) + (b.1 : ℚ)) / 2 - offX / 2, ((a.2 : ℚ) + (b.2 : ℚ)) / 2 - offY / 2))

/-- Exact cubic Bezier value of `_bezier_movement` at parameter `t`, before the
per-waypoint micro-jitter noise is added. -/
def bezier_point (a b : Point) (offX offY : ℚ) (t : ℚ) : ℚ × ℚ :=
  ((1 - t)^3 * a.1 + 3 * (1 - t)^2 * t * (bezier_controls a b offX offY).1.1
     + 3 * (1 - t) * t^2 * (bezier_controls a b offX offY).2.1 + t^3 * b.1,
   (1 - t)^3 * a.2 + 3 * (1 - t)^2 * t * (bezier_controls a b offX offY).1.2
     + 3 * (1 - t) * t^2 * (bezier_controls a b offX offY).2.2 + t^3 * b.2)

/-- Linear interpolation `start + (end - start) * t` used by the jitter,
hesitation and acceleration algorithms. -/
def lerp (a b : Point) (t : ℚ) : ℚ × ℚ :=
  ((a.1 : ℚ) + ((b.1 : ℚ) - (a.1 : ℚ)) * t, (a.2 : ℚ) + ((b.2 : ℚ) - (a.2 : ℚ)) * t)

/-- Real-valued linear interpolation used by the drift algorithm. -/
noncomputable def lerpR (a b : Point) (t : ℝ) : ℝ × ℝ :=
  ((a.1 : ℝ) + ((b.1 : ℝ) - (a.1 : ℝ)) * t, (a.2 : ℝ) + ((b.2 : ℝ) - (a.2 : ℝ)) * t)

/-- The `_bezier_movement` method. `steps` is the `random.randint(8, 15)` draw,
`offX` and `offY` the `random.uniform(-50, 50)` draws, and `noise i` the pair of
`random.uniform(-1, 1)` micro-jitter draws for waypoint `i`. The `context`
argument is accepted (Python is duck-typed, so any type) and never read.
Returns the waypoints paired with the (empty) list of sleeps performed; `none`
marks the `ZeroDivisionError` Python would raise at `t = i / steps` when
`steps = 0`. -/
def bezier_movement {α : Type} (a b : Point) (ctx : α) (steps : ℕ) (offX offY : ℚ)
    (noise : ℕ → ℚ × ℚ) : Option (List Point × List ℚ) :=
  if steps = 0 then none else
  some ((List.range (steps + 1)).map (fun (i : ℕ) =>
    (pyInt ((bezier_point a b offX offY ((i : ℚ) / (steps : ℚ))).1 + (noise i).1),
     pyInt ((bezier_point a b offX offY ((i : ℚ) / (steps : ℚ))).2 + (noise i).2))), [])

/-- The `_jitter_movement` method. `steps` is the `random.randint(10, 20)` draw
and `g i` the pair of `random.gauss(0, 2)` draws for waypoint `i` (Gaussian
draws are unbounded, so no range constraint applies to them). -/
def jitter_movement {α : Type} (a b : Point) (ctx : α) (steps : ℕ)
    (g : ℕ → ℚ × ℚ) : Option (List Point × List ℚ) :=
  if steps = 0 then none else
  some ((List.range (steps + 1)).map (fun (i : ℕ) =>
    (pyInt ((lerp a b ((i : ℚ) / (steps : ℚ))).1 + (g i).1),
     pyInt ((lerp a b ((i : ℚ) / (steps : ℚ))).2 + (g i).2))), [])

/-- The symmetric ease-in-out remapping used by `_acceleration_movement` (and by
the identical copy in `plugin_system.py`): `2 t²` below `t = 1/2`, otherwise
`1 - (-2t + 2)² / 2`. -/
def ease_in_out (t : ℚ) : ℚ := if t < 1/2 then 2 * t * t else 1 - (-2 * t + 2)^2 / 2

/-- The `_acceleration_movement` method. `steps` is the `random.randint(12, 18)`
draw; no positional noise is drawn. -/
def acceleration_movement {α : Type} (a b : Point) (ctx : α) (steps : ℕ) :
    Option (List Point × List ℚ) :=
  if steps = 0 then none else
  some ((List.range (steps + 1)).map (fun (i : ℕ) =>
    (pyInt ((lerp a b (ease_in_out ((i : ℚ) / (steps : ℚ)))).1),
     pyInt ((lerp a b (ease_in_out ((i : ℚ) / (steps : ℚ)))).2))), [])

/-- Waypoint indices at which `_hesitation_movement` pauses: the `i` in
`range(steps + 1)` with `i % q == 0`, where `q = steps // hesitation_points`. -/
def pause_indices (steps q : ℕ) : List ℕ :=
  (List.range (steps + 1)).filter (fun i => i % q == 0)

/-- The `_hesitation_movement` method. `steps` is the `random.randint(15, 25)`
draw, `hes` the `random.randint(1, 3)` draw for `hesitation_points`, and
`sleeps i` the `random.uniform(0.01, 0.03)` sleep-duration draw used if the
loop pauses at index `i`. The second component of the result collects the
sleep durations actually performed. `none` marks the `ZeroDivisionError`
Python would raise when `steps = 0` (at `i / steps`) or when
`steps // hesitation_points = 0` (at `i % ...`). -/
def hesitation_movement {α : Type} (a b : Point) (ctx : α) (steps hes : ℕ)
    (sleeps : ℕ → ℚ) : Option (List Point × List ℚ) :=
  if steps = 0 ∨ steps / hes = 0 then none else
  some ((List.range (steps + 1)).map (fun (i : ℕ) =>
    (pyInt ((lerp a b ((i : ℚ) / (steps : ℚ))).1),
     pyInt ((lerp a b ((i : ℚ) / (steps : ℚ))).2))),
    (pause_indices steps (steps / hes)).map sleeps)

/-- The lateral offset added by `_drift_movement` at parameter `t`:
`drift_magnitude * cos(drift_angle) * sin(t * π)` on x and
`drift_magnitude * sin(drift_angle) * sin(t * π)` on y. -/
noncomputable def drift_offset (mag angle : ℝ) (t : ℝ) : ℝ × ℝ :=
  (mag * Real.cos angle * Real.sin (t * Real.pi),
   mag * Real.sin angle * Real.sin (t * Real.pi))

/-- The `_drift_movement` method. `steps` is the `random.randint(10, 16)` draw,
`angle` the `random.uniform(0, 2π)` draw and `mag` the `random.uniform(5, 15)`
draw; both are drawn once per call and shared by all waypoints. -/
noncomputable def drift_movement {α : Type} (a b : Point) (ctx : α) (steps : ℕ)
    (angle mag : ℝ) : Option (List Point × List ℚ) :=
  if steps = 0 then none else
  some ((List.range (steps + 1)).map (fun (i : ℕ) =>
    (pyIntR ((lerpR a b ((i : ℝ) / (steps : ℝ))).1
        + (drift_offset mag angle ((i : ℝ) / (steps : ℝ))).1),
     pyIntR ((lerpR a b ((i : ℝ) / (steps : ℝ))).2
        + (drift_offset mag angle ((i : ℝ) / (steps : ℝ))).2))), [])

/-- One random choice of movement pattern together with all random draws the
chosen pattern consumes during the call. -/
inductive MovementDraws where
  | bezier (steps : ℕ) (offX offY : ℚ) (noise : ℕ → ℚ × ℚ)
  | jitter (steps : ℕ) (g : ℕ → ℚ × ℚ)
  | acceleration (steps : ℕ)
  | hesitation (steps hes : ℕ) (sleeps : ℕ → ℚ)
  | drift (steps : ℕ) (angle mag : ℝ)

/-- The `steps` draw of a movement choice. -/
def MovementDraws.steps : MovementDraws → ℕ
  | .bezier s _ _ _ => s
  | .jitter s _ => s
  | .acceleration s => s
  | .hesitation s _ _ => s
  | .drift s _ _ => s

/-- Whether the hesitation pattern was the one chosen. -/
def MovementDraws.isHesitation : MovementDraws → Bool
  | .hesitation _ _ _ => true
  | _ => false

/-- The draws lie in the ranges the source draws them from:
`randint(8,15)` / `randint(10,20)` / `randint(12,18)` / `randint(15,25)` with
`randint(1,3)` / `randint(10,16)` for `steps` (and `hesitation_points`), and the
`uniform` draws in their respective intervals. Gaussian draws (`random.gauss`)
have unbounded support, so the jitter noise is unconstrained. -/
def MovementDraws.wf : MovementDraws → Prop
  | .bezier s ox oy noise => 8 ≤ s ∧ s ≤ 15 ∧ |ox| ≤ 50 ∧ |oy| ≤ 50 ∧
      ∀ i, |(noise i).1| ≤ 1 ∧ |(noise i).2| ≤ 1
  | .jitter s _ => 10 ≤ s ∧ s ≤ 20
  | .acceleration s => 12 ≤ s ∧ s ≤ 18
  | .hesitation s hes sleeps => 15 ≤ s ∧ s ≤ 25 ∧ 1 ≤ hes ∧ hes ≤ 3 ∧
      ∀ i, 1/100 ≤ sleeps i ∧ sleeps i ≤ 3/100
  | .drift s angle mag => 10 ≤ s ∧ s ≤ 16 ∧ 0 ≤ angle ∧ angle ≤ 2 * Real.pi ∧
      5 ≤ mag ∧ mag ≤ 15

/-- `generate_movement_path`: dispatch on the uniformly chosen pattern
(`random.choice(self.movement_patterns)`), forwarding `start`, `end` and
`context`. The `context` parameter is polymorphic because Python is duck-typed
(the complete build's `ClickWorker.start_clicking` even passes the float
`random_variance` as this argument); no pattern reads it. -/
noncomputable def generate_movement_path {α : Type} (a b : Point) (ctx : α) :
    MovementDraws → Option (List Point × List ℚ)
  | .bezier steps offX offY noise => bezier_movement a b ctx steps offX offY noise
  | .jitter steps g => jitter_movement a b ctx steps g
  | .acceleration steps => acceleration_movement a b ctx steps
  | .hesitation steps hes sleeps => hesitation_movement a b ctx steps hes sleeps
  | .drift steps angle mag => drift_movement a b ctx steps angle mag

/-- The list of sleep durations a `generate_movement_path` call performs
(empty also when the call raises). -/
noncomputable def movement_sleeps {α : Type} (a b : Point) (ctx : α)
    (d : MovementDraws) : List ℚ :=
  ((generate_movement_path a b ctx d).map Prod.snd).getD []

/-- The `_rhythm_timing` method: `tm` is the `time.time()` reading and `u` the
`random.uniform(-0.05, 0.05)` draw. -/
noncomputable def rhythm_timing {α : Type} (base : ℝ) (ctx : α) (tm u : ℝ) : ℝ :=
  base * (1 + Real.sin (tm * 2) * (1/10) + u)

/-- The `_fatigue_timing` method: `tm` is the `time.time()` reading and `u` the
`random.uniform(0.9, 1.1)` draw; `fatigue_factor = 1 + (tm % 300) / 3000`. -/
noncomputable def fatigue_timing {α : Type} (base : ℝ) (ctx : α) (tm u : ℝ) : ℝ :=
  base * (1 + pyFloatMod tm 300 / 3000) * u

/-- The `_distraction_timing` method: `r` is the `random.random()` draw, `u` the
`random.uniform(2, 5)` draw taken when `r < 0.05`, and `v` the
`random.uniform(0.8, 1.2)` draw taken otherwise. -/
noncomputable def distraction_timing {α : Type} (base : ℝ) (ctx : α) (r u v : ℝ) : ℝ :=
  if r < 1/20 then base * u else base * v

/-- The `_focus_timing` method: `tm` is the `time.time()` reading;
`focus_cycle = sin(tm * 0.1)`. -/
noncomputable def focus_timing {α : Type} (base : ℝ) (ctx : α) (tm : ℝ) : ℝ :=
  base * (1 + Real.sin (tm * (1/10)) * (1/5))

/-- One random choice of timing pattern together with the wall-clock reading and
random draws the chosen pattern consumes. -/
inductive TimingDraws where
  | rhythm (tm u : ℝ)
  | fatigue (tm u : ℝ)
  | distraction (r u v : ℝ)
  | focus (tm : ℝ)

/-- The uniform draws lie in the intervals the source draws them from; the
wall-clock reading is unconstrained. -/
def TimingDraws.wf : TimingDraws → Prop
  | .rhythm _ u => |u| ≤ 1/20
  | .fatigue _ u => 9/10 ≤ u ∧ u ≤ 11/10
  | .distraction r u v => 0 ≤ r ∧ r < 1 ∧ 2 ≤ u ∧ u ≤ 5 ∧ 4/5 ≤ v ∧ v ≤ 6/5
  | .focus _ => True

/-- `generate_timing_delay`: dispatch on the uniformly chosen timing pattern
(`random.choice(self.timing_variance)`), forwarding `base_delay` and `context`.
As with the movement dispatcher, `context` is polymorphic and never read. -/
noncomputable def generate_timing_delay {α : Type} (base : ℝ) (ctx : α) :
    TimingDraws → ℝ
  | .rhythm tm u => rhythm_timing base ctx tm u
  | .fatigue tm u => fatigue_timing base ctx tm u
  | .distraction r u v => distraction_timing base ctx r u v
  | .focus tm => focus_timing base ctx tm

/-- The `_load_behavioral_models` table of `advanced_features.py`. It is stored
on the instance but never consulted by any movement or timing algorithm. -/
def behavioral_models : List (String × (ℚ × ℚ × ℚ)) :=
  [("gaming", (12/10, 8/10, 9/10)),
   ("productivity", (8/10, 1, 7/10)),
   ("casual", (1, 9/10, 8/10))]

/-! Helper lemmas about the embedding. -/

lemma pyInt_intCast (z : ℤ) : pyInt (z : ℚ) = z := by
  unfold pyInt; split_ifs <;> simp

lemma abs_pyInt_sub_lt (q : ℚ) : |(pyInt q : ℚ) - q| < 1 := by
  unfold pyInt
  split_ifs with h
  · rw [abs_sub_lt_iff]
    constructor
    · linarith [Int.floor_le q]
    · linarith [Int.lt_floor_add_one q]
  · rw [abs_sub_lt_iff]
    constructor
    · linarith [Int.ceil_lt_add_one q]
    · linarith [Int.le_ceil q]

lemma pyInt_close {q : ℚ} {z c : ℤ} (h : |q - (z : ℚ)| ≤ (c : ℚ)) :
    |pyInt q - z| ≤ c := by
  have h1 : |(pyInt q : ℚ) - (z : ℚ)| < (c : ℚ) + 1 := by
    calc |(pyInt q : ℚ) - (z : ℚ)|
        ≤ |(pyInt q : ℚ) - q| + |q - (z : ℚ)| := abs_sub_le _ _ _
      _ < 1 + c := by linarith [abs_pyInt_sub_lt q]
      _ = c + 1 := by ring
  have h2 : |pyInt q - z| < c + 1 := by exact_mod_cast h1
  omega

lemma pyIntR_intCast (z : ℤ) : pyIntR (z : ℝ) = z := by
  unfold pyIntR; split_ifs <;> simp

lemma abs_pyIntR_sub_lt (x : ℝ) : |(pyIntR x : ℝ) - x| < 1 := by
  unfold pyIntR
  split_ifs with h
  · rw [abs_sub_lt_iff]
    constructor
    · linarith [Int.floor_le x]
    · linarith [Int.lt_floor_add_one x]
  · rw [abs_sub_lt_iff]
    constructor
    · linarith [Int.ceil_lt_add_one x]
    · linarith [Int.le_ceil x]

lemma pyIntR_close {x : ℝ} {z c : ℤ} (h : |x - (z : ℝ)| ≤ (c : ℝ)) :
    |pyIntR x - z| ≤ c := by
  have h1 : |(pyIntR x : ℝ) - (z : ℝ)| < (c : ℝ) + 1 := by
    calc |(pyIntR x : ℝ) - (z : ℝ)|
        ≤ |(pyIntR x : ℝ) - x| + |x - (z : ℝ)| := abs_sub_le _ _ _
      _ < 1 + c := by linarith [abs_pyIntR_sub_lt x]
      _ = c + 1 := by ring
  have h2 : |pyIntR x - z| < c + 1 := by exact_mod_cast h1
  omega

lemma pyFloatMod_nonneg (a : ℝ) {b : ℝ} (hb : 0 < b) : 0 ≤ pyFloatMod a b := by
  unfold pyFloatMod
  have h := Int.floor_le (a / b)
  have h2 : b * (⌊a / b⌋ : ℝ) ≤ b * (a / b) := mul_le_mul_of_nonneg_left h hb.le
  have h3 : b * (a / b) = a := by field_simp
  linarith

lemma head?_map_range {β : Type} (f : ℕ → β) (n : ℕ) :
    ((List.range (n + 1)).map f).head? = some (f 0) := by
  rw [List.range_succ_eq_map]
  simp

lemma getLast?_map_range {β : Type} (f : ℕ → β) (n : ℕ) :
    ((List.range (n + 1)).map f).getLast? = some (f n) := by
  rw [List.range_succ, List.map_append]
  simp

lemma mem_map_range {β : Type} {f : ℕ → β} {n : ℕ} {w : β}
    (hw : w ∈ (List.range (n + 1)).map f) : ∃ i, i ≤ n ∧ w = f i := by
  rcases List.mem_map.mp hw with ⟨i, hi, rfl⟩
  exact ⟨i, Nat.lt_succ_iff.mp (List.mem_range.mp hi), rfl⟩

lemma range_t_nonneg (i steps : ℕ) : 0 ≤ (i : ℚ) / (steps : ℚ) := by positivity

lemma range_t_le_one {i steps : ℕ} (hi : i ≤ steps) (hs : steps ≠ 0) :
    (i : ℚ) / (steps : ℚ) ≤ 1 := by
  have hs0 : 0 < (steps : ℚ) := by exact_mod_cast Nat.pos_of_ne_zero hs
  rw [div_le_one hs0]
  exact_mod_cast hi

/-- Claim C1: for every base delay ≥ 0 and every context, whichever timing
algorithm is chosen and whatever the wall-clock reading and (in-range) random
draws are, `generate_timing_delay` returns a value ≥ 0; moreover the chosen
algorithm applies a strictly positive multiplicative factor to the base delay. -/
theorem timing_delay_nonneg {α : Type} (base : ℝ) (ctx : α) (d : TimingDraws)
    (hw : d.wf) (hb : 0 ≤ base) :
    0 ≤ generate_timing_delay base ctx d ∧
      ∃ f : ℝ, 0 < f ∧ generate_timing_delay base ctx d = base * f := by
  have key : ∃ f : ℝ, 0 < f ∧ generate_timing_delay base ctx d = base * f := by
    cases d with
    | rhythm tm u =>
        refine ⟨1 + Real.sin (tm * 2) * (1/10) + u, ?_, rfl⟩
        have h1 := Real.neg_one_le_sin (tm * 2)
        have h2 : -(1/20 : ℝ) ≤ u := (abs_le.mp hw).1
        linarith
    | fatigue tm u =>
        refine ⟨(1 + pyFloatMod tm 300 / 3000) * u, ?_, mul_assoc _ _ _⟩
        have hm : 0 ≤ pyFloatMod tm 300 := pyFloatMod_nonneg tm (by norm_num)
        have h9 : (9/10 : ℝ) ≤ u := hw.1
        nlinarith
    | distraction r u v =>
        obtain ⟨h0, h1, h2u, h5u, h4v, h6v⟩ := hw
        show ∃ f : ℝ, 0 < f ∧ distraction_timing base ctx r u v = base * f
        unfold distraction_timing
        split_ifs with h
        · exact ⟨u, by linarith, rfl⟩
        · exact ⟨v, by linarith, rfl⟩
    | focus tm =>
        refine ⟨1 + Real.sin (tm * (1/10)) * (1/5), ?_, rfl⟩
        have h1 := Real.neg_one_le_sin (tm * (1/10))
        linarith
  obtain ⟨f, hf, he⟩ := key
  exact ⟨he ▸ mul_nonneg hb hf.le, f, hf, he⟩

/-- Witness for C1 at `base_delay = 1`, the focus algorithm and wall clock 0. -/
theorem timing_delay_nonneg_witness :
    TimingDraws.wf (.focus 0) ∧ 0 ≤ (1 : ℝ) ∧
      (0 ≤ generate_timing_delay (1 : ℝ) "casual" (.focus 0) ∧
       ∃ f : ℝ, 0 < f ∧ generate_timing_delay (1 : ℝ) "casual" (.focus 0) = 1 * f) :=
  ⟨trivial, by norm_num,
    timing_delay_nonneg 1 ("casual") (.focus 0) trivial (by norm_num)⟩

/-- Claim C10: the `context` argument is never read by any movement or timing
algorithm, so for identical geometry, base delay, random draws and wall-clock
readings the results are identical whatever context value — even of another
type, as when `ClickWorker.start_clicking` passes the float `random_variance` —
is supplied. -/
theorem context_independence {α β : Type} (c1 : α) (c2 : β) (a b : Point)
    (d : MovementDraws) (base : ℝ) (td : TimingDraws) :
    generate_movement_path a b c1 d = generate_movement_path a b c2 d ∧
      generate_timing_delay base c1 td = generate_timing_delay base c2 td := by
  constructor
  · cases d <;> rfl
  · cases td <;> rfl

/-- Claim C8: the ease-in-out remapping satisfies `ease 0 = 0`, `ease 1 = 1`
and the symmetry `ease (1 - t) = 1 - ease t` on `[0, 1]` (and stays inside
`[0, 1]` there), and `_acceleration_movement` adds no positional noise: every
waypoint is exactly the integer truncation of the eased interpolation between
start and end. -/
theorem ease_in_out_spec :
    ease_in_out 0 = 0 ∧ ease_in_out 1 = 1 ∧
      (∀ t : ℚ, 0 ≤ t → t ≤ 1 → ease_in_out (1 - t) = 1 - ease_in_out t) ∧
      (∀ t : ℚ, 0 ≤ t → t ≤ 1 → 0 ≤ ease_in_out t ∧ ease_in_out t ≤ 1) ∧
      (∀ {α : Type} (a b : Point) (ctx : α) (steps : ℕ), steps ≠ 0 →
        ∃ ps, acceleration_movement a b ctx steps = some ps ∧ ps.2 = [] ∧
          ps.1 = (List.range (steps + 1)).map (fun (i : ℕ) =>
            (pyInt ((a.1 : ℚ) + ((b.1 : ℚ) - (a.1 : ℚ))
                * ease_in_out ((i : ℚ) / (steps : ℚ))),
             pyInt ((a.2 : ℚ) + ((b.2 : ℚ) - (a.2 : ℚ))
                * ease_in_out ((i : ℚ) / (steps : ℚ)))))) := by
  refine ⟨by norm_num [ease_in_out], by norm_num [ease_in_out], ?_, ?_, ?_⟩
  · intro t h0 h1
    unfold ease_in_out
    split_ifs with ha hb hb
    · linarith
    · ring
    · ring
    · push_neg at ha hb
      have ht : t = 1/2 := le_antisymm (by linarith) hb
      subst ht
      norm_num
  · intro t h0 h1
    unfold ease_in_out
    split_ifs with h
    · constructor
      · positivity
      · nlinarith
    · push_neg at h
      constructor
      · nlinarith [sq_nonneg (2 * t - 1)]
      · nlinarith [sq_nonneg (-2 * t + 2)]
  · intro α a b ctx steps hs
    unfold acceleration_movement
    rw [if_neg hs]
    exact ⟨_, rfl, rfl, rfl⟩

/-- Witness for C8 at `t = 1/4` and a concrete acceleration call. -/
theorem ease_in_out_spec_witness :
    0 ≤ (1/4 : ℚ) ∧ (1/4 : ℚ) ≤ 1 ∧ (12 : ℕ) ≠ 0 ∧
      ease_in_out (1 - 1/4) = 1 - ease_in_out (1/4) ∧
      (acceleration_movement ((0 : ℤ), (0 : ℤ)) ((100 : ℤ), (0 : ℤ)) "casual" 12).isSome
        = true := by
  refine ⟨by norm_num, by norm_num, by norm_num,
    ease_in_out_spec.2.2.1 (1/4) (by norm_num) (by norm_num), ?_⟩
  obtain ⟨ps, hps, -, -⟩ :=
    ease_in_out_spec.2.2.2.2 ((0 : ℤ), (0 : ℤ)) ((100 : ℤ), (0 : ℤ)) "casual" 12
      (by norm_num)
  rw [hps]
  rfl

/-- Counterexample to C2 as stated: a hesitation call with the legal draws
`steps = 25`, `hesitation_points = 1` returns `steps + 1 = 26` waypoints,
which exceeds the claimed 8–25 waypoint bound. -/
theorem hesitation_path_length_exceeds_bound :
    (MovementDraws.hesitation 25 1 (fun _ => 1/50)).wf ∧
      ((generate_movement_path ((0 : ℤ), (0 : ℤ)) ((100 : ℤ), (0 : ℤ)) "casual"
          (.hesitation 25 1 (fun _ => 1/50))).map (fun ps => ps.1.length)) = some 26 ∧
      ¬ ((26 : ℕ) ≤ 25) := by
  refine ⟨⟨by norm_num, by norm_num, by norm_num, by norm_num,
    fun i => ⟨by norm_num, by norm_num⟩⟩, ?_, by norm_num⟩
  simp only [generate_movement_path]
  unfold hesitation_movement
  rw [if_neg (by norm_num)]
  simp

/-- Claim C2 (amended): every algorithm returns exactly `steps + 1` waypoints,
where `steps` is drawn from its fixed range (Bezier 8–15, jitter 10–20,
acceleration 12–18, hesitation 15–25, drift 10–16), so the length always lies
in 9–26 (in particular it is finite and ≥ 2). -/
theorem movement_path_length {α : Type} (a b : Point) (ctx : α) (d : MovementDraws)
    (hd : d.wf) :
    ∃ ps, generate_movement_path a b ctx d = some ps ∧
      ps.1.length = d.steps + 1 ∧ 2 ≤ ps.1.length ∧ 9 ≤ ps.1.length ∧
      ps.1.length ≤ 26 := by
  cases d with
  | bezier s ox oy noise =>
      obtain ⟨h1, h2, -, -, -⟩ := hd
      simp only [generate_movement_path]
      unfold bezier_movement
      rw [if_neg (by omega)]
      refine ⟨_, rfl, ?_⟩
      simp [MovementDraws.steps]
      omega
  | jitter s g =>
      obtain ⟨h1, h2⟩ := hd
      simp only [generate_movement_path]
      unfold jitter_movement
      rw [if_neg (by omega)]
      refine ⟨_, rfl, ?_⟩
      simp [MovementDraws.steps]
      omega
  | acceleration s =>
      obtain ⟨h1, h2⟩ := hd
      simp only [generate_movement_path]
      unfold acceleration_movement
      rw [if_neg (by omega)]
      refine ⟨_, rfl, ?_⟩
      simp [MovementDraws.steps]
      omega
  | hesitation s hes sleeps =>
      obtain ⟨h1, h2, h3, h4, -⟩ := hd
      have hq1 : 1 ≤ s / hes := (Nat.one_le_div_iff (by omega)).mpr (by omega)
      simp only [generate_movement_path]
      unfold hesitation_movement
      rw [if_neg (by push_neg; exact ⟨by omega, by omega⟩)]
      refine ⟨_, rfl, ?_⟩
      simp [MovementDraws.steps]
      omega
  | drift s angle mag =>
      obtain ⟨h1, h2, -, -, -, -⟩ := hd
      simp only [generate_movement_path]
      unfold drift_movement
      rw [if_neg (by omega)]
      refine ⟨_, rfl, ?_⟩
      simp [MovementDraws.steps]
      omega

/-- Witness for the amended C2 at a concrete drift call. -/
theorem movement_path_length_witness :
    (MovementDraws.drift 10 0 5).wf ∧
      ∃ ps, generate_movement_path ((0 : ℤ), (0 : ℤ)) ((100 : ℤ), (0 : ℤ)) "casual"
          (.drift 10 0 5) = some ps ∧
        ps.1.length = (MovementDraws.drift 10 0 5).steps + 1 ∧ 2 ≤ ps.1.length ∧
        9 ≤ ps.1.length ∧ ps.1.length ≤ 26 := by
  have hw : (MovementDraws.drift 10 0 5).wf :=
    ⟨by norm_num, by norm_num, le_refl 0, by positivity, by norm_num, by norm_num⟩
  exact ⟨hw, movement_path_length ((0 : ℤ), (0 : ℤ)) ((100 : ℤ), (0 : ℤ)) "casual"
    (.drift 10 0 5) hw⟩

lemma pause_indices_ne_nil (steps q : ℕ) : pause_indices steps q ≠ [] := by
  have h0 : 0 ∈ pause_indices steps q := by
    unfold pause_indices
    exact List.mem_filter.mpr ⟨List.mem_range.mpr (Nat.succ_pos steps), by simp⟩
  exact List.ne_nil_of_mem h0

/-- Claim C4: only the hesitation algorithm ever sleeps. A call that selects
Bezier, jitter, acceleration or drift performs no sleep at all, and a
(well-formed) hesitation call always performs at least one. -/
theorem sleep_only_in_hesitation {α : Type} (a b : Point) (ctx : α)
    (d : MovementDraws) :
    (d.isHesitation = false → movement_sleeps a b ctx d = []) ∧
      (d.isHesitation = true → d.wf → movement_sleeps a b ctx d ≠ []) := by
  constructor
  · intro h
    cases d with
    | bezier s ox oy noise =>
        unfold movement_sleeps
        simp only [generate_movement_path]
        unfold bezier_movement
        split_ifs <;> rfl
    | jitter s g =>
        unfold movement_sleeps
        simp only [generate_movement_path]
        unfold jitter_movement
        split_ifs <;> rfl
    | acceleration s =>
        unfold movement_sleeps
        simp only [generate_movement_path]
        unfold acceleration_movement
        split_ifs <;> rfl
    | hesitation s hes sleeps => simp [MovementDraws.isHesitation] at h
    | drift s angle mag =>
        unfold movement_sleeps
        simp only [generate_movement_path]
        unfold drift_movement
        split_ifs <;> rfl
  · intro h hw
    cases d with
    | bezier s ox oy noise => simp [MovementDraws.isHesitation] at h
    | jitter s g => simp [MovementDraws.isHesitation] at h
    | acceleration s => simp [MovementDraws.isHesitation] at h
    | hesitation s hes sleeps =>
        obtain ⟨h1, h2, h3, h4, -⟩ := hw
        have hq1 : 1 ≤ s / hes := (Nat.one_le_div_iff (by omega)).mpr (by omega)
        unfold movement_sleeps
        simp only [generate_movement_path]
        unfold hesitation_movement
        rw [if_neg (by push_neg; exact ⟨by omega, by omega⟩)]
        simpa using pause_indices_ne_nil s (s / hes)
    | drift s angle mag => simp [MovementDraws.isHesitation] at h

/-- Witness for C4: a concrete jitter call sleeps nowhere; a concrete
hesitation call sleeps at least once. -/
theorem sleep_only_in_hesitation_witness :
    (MovementDraws.isHesitation (.jitter 10 (fun _ => (0, 0))) = false ∧
      movement_sleeps ((0 : ℤ), (0 : ℤ)) ((100 : ℤ), (0 : ℤ)) "casual"
        (.jitter 10 (fun _ => (0, 0))) = []) ∧
    (MovementDraws.isHesitation (.hesitation 15 2 (fun _ => 1/50)) = true ∧
      (MovementDraws.hesitation 15 2 (fun _ => 1/50)).wf ∧
      movement_sleeps ((0 : ℤ), (0 : ℤ)) ((100 : ℤ), (0 : ℤ)) "casual"
        (.hesitation 15 2 (fun _ => 1/50)) ≠ []) := by
  have hw : (MovementDraws.hesitation 15 2 (fun _ => 1/50)).wf :=
    ⟨by norm_num, by norm_num, by norm_num, by norm_num,
      fun i => ⟨by norm_num, by norm_num⟩⟩
  exact ⟨⟨rfl, (sleep_only_in_hesitation _ _ ("casual") _).1 rfl⟩,
    ⟨rfl, hw, (sleep_only_in_hesitation _ _ ("casual") _).2 rfl hw⟩⟩

lemma pause_indices_eq : ∀ steps : ℕ, steps < 26 → 15 ≤ steps →
    ∀ hes : ℕ, hes < 4 → 1 ≤ hes →
    pause_indices steps (steps / hes) =
      (List.range (hes + 1)).map (fun k => k * (steps / hes)) := by decide

/-- Counterexample to C7 as stated: with the legal draws `steps = 15`,
`hesitation_points = 3`, the divisor is `15 // 3 = 5` and the generator pauses
at the four indices 0, 5, 10, 15 — more than the claimed 1–3 pauses. -/
theorem hesitation_four_pause_points :
    (MovementDraws.hesitation 15 3 (fun _ => 1/50)).wf ∧
      pause_indices 15 (15 / 3) = [0, 5, 10, 15] ∧
      (pause_indices 15 (15 / 3)).length = 4 ∧ ¬ ((4 : ℕ) ≤ 3) ∧
      ((generate_movement_path ((0 : ℤ), (0 : ℤ)) ((100 : ℤ), (0 : ℤ)) "casual"
          (.hesitation 15 3 (fun _ => 1/50))).map (fun ps => ps.2.length))
        = some 4 := by
  refine ⟨⟨by norm_num, by norm_num, by norm_num, by norm_num,
    fun i => ⟨by norm_num, by norm_num⟩⟩, by decide, by decide, by norm_num, ?_⟩
  simp only [generate_movement_path]
  decide

/-- Claim C7 (amended): `_hesitation_movement` pauses at the multiples of
`steps // hesitation_points` in `[0, steps]`; for the drawn ranges
(`steps` 15–25, `hesitation_points` 1–3) these are exactly
`hesitation_points + 1` equally spaced indices, i.e. between 2 and 4 pauses,
not 1–3. -/
theorem hesitation_pause_structure {α : Type} (a b : Point) (ctx : α)
    (steps hes : ℕ) (sleeps : ℕ → ℚ)
    (h26 : steps < 26) (h15 : 15 ≤ steps) (h4 : hes < 4) (h1 : 1 ≤ hes) :
    ∃ ps, hesitation_movement a b ctx steps hes sleeps = some ps ∧
      ps.2 = ((List.range (hes + 1)).map (fun k => k * (steps / hes))).map sleeps ∧
      ps.2.length = hes + 1 ∧ 2 ≤ hes + 1 ∧ hes + 1 ≤ 4 ∧
      pause_indices steps (steps / hes) =
        (List.range (hes + 1)).map (fun k => k * (steps / hes)) := by
  have key := pause_indices_eq steps h26 h15 hes h4 h1
  have hq1 : 1 ≤ steps / hes := (Nat.one_le_div_iff (by omega)).mpr (by omega)
  unfold hesitation_movement
  rw [if_neg (by push_neg; exact ⟨by omega, by omega⟩)]
  refine ⟨_, rfl, ?_, ?_, by omega, by omega, key⟩
  · simp [key]
  · simp [key]

/-- Witness for the amended C7 at `steps = 15`, `hesitation_points = 2`. -/
theorem hesitation_pause_structure_witness :
    (15 : ℕ) < 26 ∧ 15 ≤ (15 : ℕ) ∧ (2 : ℕ) < 4 ∧ 1 ≤ (2 : ℕ) ∧
      ∃ ps, hesitation_movement ((0 : ℤ), (0 : ℤ)) ((100 : ℤ), (0 : ℤ)) "casual"
          15 2 (fun _ => 1/50) = some ps ∧
        ps.2 = ((List.range (2 + 1)).map (fun k => k * (15 / 2))).map
          (fun _ => (1/50 : ℚ)) ∧
        ps.2.length = 2 + 1 ∧ 2 ≤ 2 + 1 ∧ 2 + 1 ≤ 4 ∧
        pause_indices 15 (15 / 2) =
          (List.range (2 + 1)).map (fun k => k * (15 / 2)) :=
  ⟨by norm_num, by norm_num, by norm_num, by norm_num,
    hesitation_pause_structure ((0 : ℤ), (0 : ℤ)) ((100 : ℤ), (0 : ℤ)) "casual"
      15 2 (fun _ => 1/50) (by norm_num) (by norm_num) (by norm_num) (by norm_num)⟩

lemma closeTo_of_noise {x y nx ny : ℚ} {p : Point}
    (hx : x = (p.1 : ℚ)) (hy : y = (p.2 : ℚ)) (hnx : |nx| ≤ 1) (hny : |ny| ≤ 1) :
    closeTo (pyInt (x + nx), pyInt (y + ny)) p 1 := by
  subst hx
  subst hy
  constructor
  · exact pyInt_close (c := 1) (by push_cast; rw [add_sub_cancel_left]; exact hnx)
  · exact pyInt_close (c := 1) (by push_cast; rw [add_sub_cancel_left]; exact hny)

lemma bezier_point_zero (a b : Point) (offX offY : ℚ) :
    bezier_point a b offX offY 0 = ((a.1 : ℚ), (a.2 : ℚ)) := by
  unfold bezier_point
  simp only [Prod.mk.injEq]
  constructor <;> ring

lemma bezier_point_one (a b : Point) (offX offY : ℚ) :
    bezier_point a b offX offY 1 = ((b.1 : ℚ), (b.2 : ℚ)) := by
  unfold bezier_point
  simp only [Prod.mk.injEq]
  constructor <;> ring

lemma lerp_zero (a b : Point) : lerp a b 0 = ((a.1 : ℚ), (a.2 : ℚ)) := by
  unfold lerp
  simp only [Prod.mk.injEq]
  constructor <;> ring

lemma lerp_one (a b : Point) : lerp a b 1 = ((b.1 : ℚ), (b.2 : ℚ)) := by
  unfold lerp
  simp only [Prod.mk.injEq]
  constructor <;> ring

lemma lerpR_zero (a b : Point) : lerpR a b 0 = ((a.1 : ℝ), (a.2 : ℝ)) := by
  unfold lerpR
  simp only [Prod.mk.injEq]
  constructor <;> ring

lemma lerpR_one (a b : Point) : lerpR a b 1 = ((b.1 : ℝ), (b.2 : ℝ)) := by
  unfold lerpR
  simp only [Prod.mk.injEq]
  constructor <;> ring

lemma drift_offset_zero (mag angle : ℝ) : drift_offset mag angle 0 = (0, 0) := by
  unfold drift_offset
  simp

lemma drift_offset_one (mag angle : ℝ) : drift_offset mag angle 1 = (0, 0) := by
  unfold drift_offset
  simp [Real.sin_pi]

lemma cast_zero_div (steps : ℕ) : ((0 : ℕ) : ℚ) / (steps : ℚ) = 0 := by norm_num

lemma cast_self_div {steps : ℕ} (hs : steps ≠ 0) :
    ((steps : ℕ) : ℚ) / (steps : ℚ) = 1 :=
  div_self (Nat.cast_ne_zero.mpr hs)

lemma cast_zero_divR (steps : ℕ) : ((0 : ℕ) : ℝ) / (steps : ℝ) = 0 := by norm_num

lemma cast_self_divR {steps : ℕ} (hs : steps ≠ 0) :
    ((steps : ℕ) : ℝ) / (steps : ℝ) = 1 :=
  div_self (Nat.cast_ne_zero.mpr hs)

/-- Counterexample to C3 as stated: the jitter algorithm adds `random.gauss(0, 2)`
noise, whose support is unbounded, so no fixed tolerance bounds the first
waypoint. A legal jitter call whose Gaussian draw at index 0 is 1000 puts the
first waypoint 1000 pixels from the start point, beyond the spec's ≤ 60 pixel
envelope (or any other small fixed tolerance). -/
theorem jitter_first_waypoint_unbounded :
    (MovementDraws.jitter 10 (fun i => if i = 0 then (1000, 0) else (0, 0))).wf ∧
      ((jitter_movement ((0 : ℤ), (0 : ℤ)) ((10 : ℤ), (0 : ℤ)) "casual" 10
          (fun i => if i = 0 then (1000, 0) else (0, 0))).map (fun ps => ps.1.head?))
        = some (some ((1000 : ℤ), (0 : ℤ))) ∧
      ¬ closeTo ((1000 : ℤ), (0 : ℤ)) ((0 : ℤ), (0 : ℤ)) 60 := by
  refine ⟨⟨by norm_num, by norm_num⟩, ?_, ?_⟩
  · unfold jitter_movement
    rw [if_neg (by norm_num)]
    simp only [Option.map_some']
    rw [head?_map_range]
    norm_num [lerp, pyInt]
  · intro h
    have := h.1
    norm_num at this

/-- Claim C3 (amended): the Bezier path starts and ends within 1 pixel of
`start` and `end` (its only endpoint error is the truncated `uniform(-1, 1)`
micro-jitter); the acceleration, hesitation and drift paths start exactly at
`start` and end exactly at `end`; the jitter path's endpoints equal `start` and
`end` perturbed by exactly the Gaussian draw at that index — which is unbounded
over all draws, so a fixed tolerance holds for it only when those draws are
bounded by it. -/
theorem movement_path_endpoints :
    (∀ {α : Type} (a b : Point) (ctx : α) (steps : ℕ) (offX offY : ℚ)
        (noise : ℕ → ℚ × ℚ), steps ≠ 0 →
        (∀ i, |(noise i).1| ≤ 1 ∧ |(noise i).2| ≤ 1) →
        ∃ ps, bezier_movement a b ctx steps offX offY noise = some ps ∧
          (∃ f, ps.1.head? = some f ∧ closeTo f a 1) ∧
          (∃ l, ps.1.getLast? = some l ∧ closeTo l b 1)) ∧
      (∀ {α : Type} (a b : Point) (ctx : α) (steps : ℕ) (g : ℕ → ℚ × ℚ),
        steps ≠ 0 →
        ∃ ps, jitter_movement a b ctx steps g = some ps ∧
          ps.1.head? = some (pyInt ((a.1 : ℚ) + (g 0).1), pyInt ((a.2 : ℚ) + (g 0).2)) ∧
          ps.1.getLast? = some (pyInt ((b.1 : ℚ) + (g steps).1),
            pyInt ((b.2 : ℚ) + (g steps).2))) ∧
      (∀ {α : Type} (a b : Point) (ctx : α) (steps : ℕ), steps ≠ 0 →
        ∃ ps, acceleration_movement a b ctx steps = some ps ∧
          ps.1.head? = some a ∧ ps.1.getLast? = some b) ∧
      (∀ {α : Type} (a b : Point) (ctx : α) (steps hes : ℕ) (sleeps : ℕ → ℚ),
        steps ≠ 0 → steps / hes ≠ 0 →
        ∃ ps, hesitation_movement a b ctx steps hes sleeps = some ps ∧
          ps.1.head? = some a ∧ ps.1.getLast? = some b) ∧
      (∀ {α : Type} (a b : Point) (ctx : α) (steps : ℕ) (angle mag : ℝ),
        steps ≠ 0 →
        ∃ ps, drift_movement a b ctx steps angle mag = some ps ∧
          ps.1.head? = some a ∧ ps.1.getLast? = some b) := by
  refine ⟨?_, ?_, ?_, ?_, ?_⟩
  · intro α a b ctx steps offX offY noise hs hn
    unfold bezier_movement
    rw [if_neg hs]
    refine ⟨_, rfl, ⟨_, head?_map_range _ _, ?_⟩, ⟨_, getLast?_map_range _ _, ?_⟩⟩
    · exact closeTo_of_noise
        (by rw [cast_zero_div, bezier_point_zero])
        (by rw [cast_zero_div, bezier_point_zero])
        (hn 0).1 (hn 0).2
    · exact closeTo_of_noise
        (by rw [cast_self_div hs, bezier_point_one])
        (by rw [cast_self_div hs, bezier_point_one])
        (hn steps).1 (hn steps).2
  · intro α a b ctx steps g hs
    unfold jitter_movement
    rw [if_neg hs]
    refine ⟨_, rfl, ?_, ?_⟩
    · rw [head?_map_range]
      have hx : (lerp a b (((0 : ℕ) : ℚ) / (steps : ℚ))) = ((a.1 : ℚ), (a.2 : ℚ)) := by
        rw [cast_zero_div, lerp_zero]
      exact congrArg some (by rw [hx])
    · rw [getLast?_map_range]
      have hx : (lerp a b (((steps : ℕ) : ℚ) / (steps : ℚ))) = ((b.1 : ℚ), (b.2 : ℚ)) := by
        rw [cast_self_div hs, lerp_one]
      exact congrArg some (by rw [hx])
  · intro α a b ctx steps hs
    unfold acceleration_movement
    rw [if_neg hs]
    refine ⟨_, rfl, ?_, ?_⟩
    · rw [head?_map_range]
      have hx : (lerp a b (ease_in_out (((0 : ℕ) : ℚ) / (steps : ℚ))))
          = ((a.1 : ℚ), (a.2 : ℚ)) := by
        rw [cast_zero_div, show ease_in_out 0 = 0 by norm_num [ease_in_out], lerp_zero]
      exact congrArg some (by rw [hx, pyInt_intCast, pyInt_intCast])
    · rw [getLast?_map_range]
      have hx : (lerp a b (ease_in_out (((steps : ℕ) : ℚ) / (steps : ℚ))))
          = ((b.1 : ℚ), (b.2 : ℚ)) := by
        rw [cast_self_div hs, show ease_in_out 1 = 1 by norm_num [ease_in_out], lerp_one]
      exact congrArg some (by rw [hx, pyInt_intCast, pyInt_intCast])
  · intro α a b ctx steps hes sleeps hs hq
    unfold hesitation_movement
    rw [if_neg (by push_neg; exact ⟨hs, hq⟩)]
    refine ⟨_, rfl, ?_, ?_⟩
    · rw [head?_map_range]
      have hx : (lerp a b (((0 : ℕ) : ℚ) / (steps : ℚ))) = ((a.1 : ℚ), (a.2 : ℚ)) := by
        rw [cast_zero_div, lerp_zero]
      exact congrArg some (by rw [hx, pyInt_intCast, pyInt_intCast])
    · rw [getLast?_map_range]
      have hx : (lerp a b (((steps : ℕ) : ℚ) / (steps : ℚ))) = ((b.1 : ℚ), (b.2 : ℚ)) := by
        rw [cast_self_div hs, lerp_one]
      exact congrArg some (by rw [hx, pyInt_intCast, pyInt_intCast])
  · intro α a b ctx steps angle mag hs
    unfold drift_movement
    rw [if_neg hs]
    refine ⟨_, rfl, ?_, ?_⟩
    · rw [head?_map_range]
      have hx : (lerpR a b (((0 : ℕ) : ℝ) / (steps : ℝ))) = ((a.1 : ℝ), (a.2 : ℝ)) := by
        rw [cast_zero_divR, lerpR_zero]
      have ho : drift_offset mag angle (((0 : ℕ) : ℝ) / (steps : ℝ)) = (0, 0) := by
        rw [cast_zero_divR, drift_offset_zero]
      exact congrArg some (by rw [hx, ho]; simp [pyIntR_intCast])
    · rw [getLast?_map_range]
      have hx : (lerpR a b (((steps : ℕ) : ℝ) / (steps : ℝ))) = ((b.1 : ℝ), (b.2 : ℝ)) := by
        rw [cast_self_divR hs, lerpR_one]
      have ho : drift_offset mag angle (((steps : ℕ) : ℝ) / (steps : ℝ)) = (0, 0) := by
        rw [cast_self_divR hs, drift_offset_one]
      exact congrArg some (by rw [hx, ho]; simp [pyIntR_intCast])

/-- Witness for the amended C3: concrete calls of each algorithm. -/
theorem movement_path_endpoints_witness :
    ((8 : ℕ) ≠ 0 ∧
      (bezier_movement ((0 : ℤ), (0 : ℤ)) ((100 : ℤ), (50 : ℤ)) "casual" 8 50 (-50)
        (fun _ => (1/2, 1/2))).isSome = true) ∧
      ((10 : ℕ) ≠ 0 ∧
        (jitter_movement ((0 : ℤ), (0 : ℤ)) ((100 : ℤ), (50 : ℤ)) "casual" 10
          (fun _ => (0, 0))).isSome = true) ∧
      ((12 : ℕ) ≠ 0 ∧
        (acceleration_movement ((0 : ℤ), (0 : ℤ)) ((100 : ℤ), (50 : ℤ)) "casual"
          12).isSome = true) ∧
      ((15 : ℕ) ≠ 0 ∧ (15 : ℕ) / 2 ≠ 0 ∧
        (hesitation_movement ((0 : ℤ), (0 : ℤ)) ((100 : ℤ), (50 : ℤ)) "casual" 15 2
          (fun _ => 1/50)).isSome = true) ∧
      ((10 : ℕ) ≠ 0 ∧
        (drift_movement ((0 : ℤ), (0 : ℤ)) ((100 : ℤ), (50 : ℤ)) "casual" 10 0
          5).isSome = true) := by
  refine ⟨⟨by norm_num, ?_⟩, ⟨by norm_num, ?_⟩, ⟨by norm_num, ?_⟩,
    ⟨by norm_num, by norm_num, ?_⟩, ⟨by norm_num, ?_⟩⟩
  · obtain ⟨ps, hps, -, -⟩ := movement_path_endpoints.1 ((0 : ℤ), (0 : ℤ))
      ((100 : ℤ), (50 : ℤ)) "casual" 8 50 (-50) (fun _ => (1/2, 1/2)) (by norm_num)
      (fun i => ⟨by norm_num [abs_le], by norm_num [abs_le]⟩)
    rw [hps]
    rfl
  · obtain ⟨ps, hps, -, -⟩ := movement_path_endpoints.2.1 ((0 : ℤ), (0 : ℤ))
      ((100 : ℤ), (50 : ℤ)) "casual" 10 (fun _ => (0, 0)) (by norm_num)
    rw [hps]
    rfl
  · obtain ⟨ps, hps, -, -⟩ := movement_path_endpoints.2.2.1 ((0 : ℤ), (0 : ℤ))
      ((100 : ℤ), (50 : ℤ)) "casual" 12 (by norm_num)
    rw [hps]
    rfl
  · obtain ⟨ps, hps, -, -⟩ := movement_path_endpoints.2.2.2.1 ((0 : ℤ), (0 : ℤ))
      ((100 : ℤ), (50 : ℤ)) "casual" 15 2 (fun _ => 1/50) (by norm_num) (by norm_num)
    rw [hps]
    rfl
  · obtain ⟨ps, hps, -, -⟩ := movement_path_endpoints.2.2.2.2 ((0 : ℤ), (0 : ℤ))
      ((100 : ℤ), (50 : ℤ)) "casual" 10 0 5 (by norm_num)
    rw [hps]
    rfl

lemma sin_half_pi : Real.sin ((1/2 : ℝ) * Real.pi) = 1 := by
  rw [show (1/2 : ℝ) * Real.pi = Real.pi / 2 by ring]
  exact Real.sin_pi_div_two

/-- Counterexample to C5 as stated: the drift direction is a uniformly random
angle, not the perpendicular of the start-end segment. With the legal draws
`angle = 0`, `magnitude = 10` and the segment from (0,0) to (100,0), the offset
at the midpoint is (10, 0), whose dot product with the segment direction is
1000 ≠ 0 — the displacement is parallel to the segment, not perpendicular. -/
theorem drift_offset_not_perpendicular :
    drift_offset 10 0 (1/2) = (10, 0) ∧
      (drift_offset 10 0 (1/2)).1 * (((100 : ℤ) : ℝ) - ((0 : ℤ) : ℝ))
          + (drift_offset 10 0 (1/2)).2 * (((0 : ℤ) : ℝ) - ((0 : ℤ) : ℝ)) ≠ 0 ∧
      (0 : ℝ) ≤ 0 ∧ (0 : ℝ) ≤ 2 * Real.pi ∧ (5 : ℝ) ≤ 10 ∧ (10 : ℝ) ≤ 15 := by
  have hoff : drift_offset 10 0 (1/2) = ((10 : ℝ), (0 : ℝ)) := by
    unfold drift_offset
    rw [Real.cos_zero, Real.sin_zero, sin_half_pi]
    norm_num
  refine ⟨hoff, ?_, le_refl 0, by positivity, by norm_num, by norm_num⟩
  rw [hoff]
  norm_num

/-- Claim C5 (amended): the drift offset is a sine-windowed displacement in a
direction fixed once per call by the uniformly drawn `drift_angle` (not
necessarily perpendicular to the start-end segment), with magnitude fixed per
call; it vanishes at both endpoints and componentwise peaks at the path
midpoint `t = 1/2`, and every drift waypoint is the truncated sum of the linear
interpolation and this offset. -/
theorem drift_offset_sine_window {α : Type} (a b : Point) (ctx : α) (steps : ℕ)
    (angle mag : ℝ) (hs : steps ≠ 0) :
    (∀ t : ℝ, drift_offset mag angle t
        = (Real.sin (t * Real.pi) * (mag * Real.cos angle),
           Real.sin (t * Real.pi) * (mag * Real.sin angle))) ∧
      drift_offset mag angle 0 = (0, 0) ∧
      drift_offset mag angle 1 = (0, 0) ∧
      (∀ t : ℝ, |(drift_offset mag angle t).1| ≤ |(drift_offset mag angle (1/2)).1| ∧
        |(drift_offset mag angle t).2| ≤ |(drift_offset mag angle (1/2)).2|) ∧
      ∃ ps, drift_movement a b ctx steps angle mag = some ps ∧
        ps.1 = (List.range (steps + 1)).map (fun (i : ℕ) =>
          (pyIntR ((lerpR a b ((i : ℝ) / (steps : ℝ))).1
              + (drift_offset mag angle ((i : ℝ) / (steps : ℝ))).1),
           pyIntR ((lerpR a b ((i : ℝ) / (steps : ℝ))).2
              + (drift_offset mag angle ((i : ℝ) / (steps : ℝ))).2))) := by
  have hpeak1 : (drift_offset mag angle (1/2)).1 = mag * Real.cos angle := by
    unfold drift_offset
    rw [sin_half_pi]
    ring
  have hpeak2 : (drift_offset mag angle (1/2)).2 = mag * Real.sin angle := by
    unfold drift_offset
    rw [sin_half_pi]
    ring
  refine ⟨?_, drift_offset_zero mag angle, drift_offset_one mag angle, ?_, ?_⟩
  · intro t
    unfold drift_offset
    simp only [Prod.mk.injEq]
    constructor <;> ring
  · intro t
    constructor
    · rw [hpeak1]
      calc |(drift_offset mag angle t).1|
          = |mag * Real.cos angle| * |Real.sin (t * Real.pi)| := by
            unfold drift_offset
            rw [abs_mul]
        _ ≤ |mag * Real.cos angle| * 1 :=
            mul_le_mul_of_nonneg_left (Real.abs_sin_le_one _) (abs_nonneg _)
        _ = |mag * Real.cos angle| := mul_one _
    · rw [hpeak2]
      calc |(drift_offset mag angle t).2|
          = |mag * Real.sin angle| * |Real.sin (t * Real.pi)| := by
            unfold drift_offset
            rw [abs_mul]
        _ ≤ |mag * Real.sin angle| * 1 :=
            mul_le_mul_of_nonneg_left (Real.abs_sin_le_one _) (abs_nonneg _)
        _ = |mag * Real.sin angle| := mul_one _
  · unfold drift_movement
    rw [if_neg hs]
    exact ⟨_, rfl, rfl⟩

/-- Witness for the amended C5 at a concrete drift call. -/
theorem drift_offset_sine_window_witness :
    (10 : ℕ) ≠ 0 ∧ drift_offset 5 0 0 = (0, 0) ∧
      (drift_movement ((0 : ℤ), (0 : ℤ)) ((100 : ℤ), (0 : ℤ)) "casual" 10 0 5).isSome
        = true := by
  have h := drift_offset_sine_window ((0 : ℤ), (0 : ℤ)) ((100 : ℤ), (0 : ℤ))
    "casual" 10 (0 : ℝ) (5 : ℝ) (by norm_num)
  refine ⟨by norm_num, h.2.1, ?_⟩
  obtain ⟨ps, hps, -⟩ := h.2.2.2.2
  rw [hps]
  rfl

/-- Counterexample to C6 as stated: the second control point subtracts only
half the offset (`control2 = mid - offset/2`), so the control points are not
symmetric about the midpoint. With start (0,0), end (100,0) and the legal
offset draw `offset_x = 50`, the two control x-coordinates sum to 125, not
`2 * mid_x = 100`. -/
theorem bezier_controls_not_symmetric :
    (bezier_controls ((0 : ℤ), (0 : ℤ)) ((100 : ℤ), (0 : ℤ)) 50 0).1.1
        + (bezier_controls ((0 : ℤ), (0 : ℤ)) ((100 : ℤ), (0 : ℤ)) 50 0).2.1 = 125 ∧
      ¬ ((bezier_controls ((0 : ℤ), (0 : ℤ)) ((100 : ℤ), (0 : ℤ)) 50 0).1.1
          + (bezier_controls ((0 : ℤ), (0 : ℤ)) ((100 : ℤ), (0 : ℤ)) 50 0).2.1
        = 2 * ((((0 : ℤ) : ℚ) + ((100 : ℤ) : ℚ)) / 2)) ∧
      |(50 : ℚ)| ≤ 50 ∧ |(0 : ℚ)| ≤ 50 := by
  refine ⟨by norm_num [bezier_controls], by norm_num [bezier_controls], ?_, ?_⟩ <;>
    norm_num [abs_le]

lemma pyInt_add_noise_close {x n : ℚ} (hn : |n| ≤ 1) :
    |(pyInt (x + n) : ℚ) - x| ≤ 2 := by
  have h1 : |(pyInt (x + n) : ℚ) - (x + n)| < 1 := abs_pyInt_sub_lt (x + n)
  calc |(pyInt (x + n) : ℚ) - x|
      = |((pyInt (x + n) : ℚ) - (x + n)) + n| := by
        rw [show (pyInt (x + n) : ℚ) - x = ((pyInt (x + n) : ℚ) - (x + n)) + n by ring]
    _ ≤ |(pyInt (x + n) : ℚ) - (x + n)| + |n| := abs_add _ _
    _ ≤ 2 := by linarith

/-- Claim C6 (amended): `control1 = mid + offset` but `control2 = mid - offset/2`
(so `control1 + control2 = 2 * mid + offset/2`; the placement is symmetric only
for zero offset); the cubic Bezier curve is sampled at evenly spaced parameter
values `i / steps`, and independent uniform noise in `[-1, 1]` is added to each
sampled point, leaving every waypoint within 2 pixels of the exact curve
point. -/
theorem bezier_controls_structure {α : Type} (a b : Point) (ctx : α)
    (offX offY : ℚ) (steps : ℕ) (noise : ℕ → ℚ × ℚ) (hs : steps ≠ 0)
    (hn : ∀ i, |(noise i).1| ≤ 1 ∧ |(noise i).2| ≤ 1) :
    (bezier_controls a b offX offY).1
        = (((a.1 : ℚ) + (b.1 : ℚ)) / 2 + offX, ((a.2 : ℚ) + (b.2 : ℚ)) / 2 + offY) ∧
      (bezier_controls a b offX offY).2
        = (((a.1 : ℚ) + (b.1 : ℚ)) / 2 - offX / 2,
           ((a.2 : ℚ) + (b.2 : ℚ)) / 2 - offY / 2) ∧
      (bezier_controls a b offX offY).1.1 + (bezier_controls a b offX offY).2.1
        = 2 * (((a.1 : ℚ) + (b.1 : ℚ)) / 2) + offX / 2 ∧
      (bezier_controls a b offX offY).1.2 + (bezier_controls a b offX offY).2.2
        = 2 * (((a.2 : ℚ) + (b.2 : ℚ)) / 2) + offY / 2 ∧
      (∀ i : ℕ, i < steps → ((i : ℚ) + 1) / (steps : ℚ) - (i : ℚ) / (steps : ℚ)
        = 1 / (steps : ℚ)) ∧
      ∃ ps, bezier_movement a b ctx steps offX offY noise = some ps ∧
        ∀ w ∈ ps.1, ∃ i, i ≤ steps ∧
          |(w.1 : ℚ) - (bezier_point a b offX offY ((i : ℚ) / (steps : ℚ))).1| ≤ 2 ∧
          |(w.2 : ℚ) - (bezier_point a b offX offY ((i : ℚ) / (steps : ℚ))).2| ≤ 2 := by
  refine ⟨rfl, rfl, by unfold bezier_controls; dsimp; ring,
    by unfold bezier_controls; dsimp; ring, ?_, ?_⟩
  · intro i hi
    rw [div_sub_div_same]
    norm_num
  · unfold bezier_movement
    rw [if_neg hs]
    refine ⟨_, rfl, ?_⟩
    intro w hw
    obtain ⟨i, hi, rfl⟩ := mem_map_range hw
    exact ⟨i, hi, pyInt_add_noise_close (hn i).1, pyInt_add_noise_close (hn i).2⟩

/-- Witness for the amended C6 at a concrete Bezier call. -/
theorem bezier_controls_structure_witness :
    (8 : ℕ) ≠ 0 ∧
      (bezier_controls ((0 : ℤ), (0 : ℤ)) ((100 : ℤ), (0 : ℤ)) 50 0).1.1
          + (bezier_controls ((0 : ℤ), (0 : ℤ)) ((100 : ℤ), (0 : ℤ)) 50 0).2.1
        = 2 * ((((0 : ℤ) : ℚ) + ((100 : ℤ) : ℚ)) / 2) + 50 / 2 ∧
      (bezier_movement ((0 : ℤ), (0 : ℤ)) ((100 : ℤ), (0 : ℤ)) "casual" 8 50 0
        (fun _ => (0, 0))).isSome = true := by
  have h := bezier_controls_structure ((0 : ℤ), (0 : ℤ)) ((100 : ℤ), (0 : ℤ))
    "casual" 50 0 8 (fun _ => (0, 0)) (by norm_num)
    (fun i => ⟨by norm_num, by norm_num⟩)
  refine ⟨by norm_num, h.2.2.1, ?_⟩
  obtain ⟨ps, hps, -⟩ := h.2.2.2.2.2
  rw [hps]
  rfl

lemma lerp_self (p : Point) (t : ℚ) : lerp p p t = ((p.1 : ℚ), (p.2 : ℚ)) := by
  unfold lerp
  simp only [Prod.mk.injEq]
  constructor <;> ring

lemma lerpR_self (p : Point) (t : ℝ) : lerpR p p t = ((p.1 : ℝ), (p.2 : ℝ)) := by
  unfold lerpR
  simp only [Prod.mk.injEq]
  constructor <;> ring

lemma bezier_point_self (p : Point) (ox oy : ℚ) (t : ℚ) :
    (bezier_point p p ox oy t).1
        = (p.1 : ℚ) + ox * (3 * (1 - t)^2 * t - 3/2 * ((1 - t) * t^2)) ∧
      (bezier_point p p ox oy t).2
        = (p.2 : ℚ) + oy * (3 * (1 - t)^2 * t - 3/2 * ((1 - t) * t^2)) := by
  unfold bezier_point bezier_controls
  dsimp
  constructor <;> ring

lemma bezier_coef_bound {t : ℚ} (h0 : 0 ≤ t) (h1 : t ≤ 1) :
    |3 * (1 - t)^2 * t - 3/2 * ((1 - t) * t^2)| ≤ 3/4 := by
  have ht : 0 ≤ t * (1 - t) := mul_nonneg h0 (by linarith)
  have ht4 : t * (1 - t) ≤ 1/4 := by nlinarith [sq_nonneg (2 * t - 1)]
  rw [abs_le]
  constructor <;> nlinarith

lemma offset_noise_bound {c E n : ℚ} (hc : |c| ≤ 50) (hE : |E| ≤ 3/4)
    (hn : |n| ≤ 1) : |c * E + n| ≤ 39 := by
  have h1 : |c| * |E| ≤ 50 * (3/4) :=
    mul_le_mul hc hE (abs_nonneg _) (by norm_num)
  calc |c * E + n| ≤ |c * E| + |n| := abs_add _ _
    _ = |c| * |E| + |n| := by rw [abs_mul]
    _ ≤ 39 := by linarith

lemma bezier_degenerate_close {p : Point} {ox oy nx ny t : ℚ}
    (hox : |ox| ≤ 50) (hoy : |oy| ≤ 50) (h0 : 0 ≤ t) (h1 : t ≤ 1)
    (hnx : |nx| ≤ 1) (hny : |ny| ≤ 1) :
    closeTo (pyInt ((bezier_point p p ox oy t).1 + nx),
      pyInt ((bezier_point p p ox oy t).2 + ny)) p 39 := by
  obtain ⟨e1, e2⟩ := bezier_point_self p ox oy t
  have hc := bezier_coef_bound h0 h1
  constructor
  · apply pyInt_close (c := 39)
    rw [e1]
    push_cast
    rw [show (p.1 : ℚ) + ox * (3 * (1 - t)^2 * t - 3/2 * ((1 - t) * t^2)) + nx
        - (p.1 : ℚ) = ox * (3 * (1 - t)^2 * t - 3/2 * ((1 - t) * t^2)) + nx
      from by ring]
    exact offset_noise_bound hox hc hnx
  · apply pyInt_close (c := 39)
    rw [e2]
    push_cast
    rw [show (p.2 : ℚ) + oy * (3 * (1 - t)^2 * t - 3/2 * ((1 - t) * t^2)) + ny
        - (p.2 : ℚ) = oy * (3 * (1 - t)^2 * t - 3/2 * ((1 - t) * t^2)) + ny
      from by ring]
    exact offset_noise_bound hoy hc hny

lemma drift_offset_bound {mag : ℝ} (angle : ℝ) (h5 : 5 ≤ mag) (h15 : mag ≤ 15)
    (t : ℝ) :
    |(drift_offset mag angle t).1| ≤ 15 ∧ |(drift_offset mag angle t).2| ≤ 15 := by
  have hm : |mag| ≤ 15 := by
    rw [abs_of_nonneg (by linarith)]
    exact h15
  constructor
  · unfold drift_offset
    dsimp
    rw [abs_mul, abs_mul]
    calc |mag| * |Real.cos angle| * |Real.sin (t * Real.pi)| ≤ 15 * 1 * 1 := by
          apply mul_le_mul _ (Real.abs_sin_le_one _) (abs_nonneg _) (by norm_num)
          exact mul_le_mul hm (Real.abs_cos_le_one _) (abs_nonneg _) (by norm_num)
      _ = 15 := by norm_num
  · unfold drift_offset
    dsimp
    rw [abs_mul, abs_mul]
    calc |mag| * |Real.sin angle| * |Real.sin (t * Real.pi)| ≤ 15 * 1 * 1 := by
          apply mul_le_mul _ (Real.abs_sin_le_one _) (abs_nonneg _) (by norm_num)
          exact mul_le_mul hm (Real.abs_sin_le_one _) (abs_nonneg _) (by norm_num)
      _ = 15 := by norm_num

lemma range_tR_nonneg (i steps : ℕ) : 0 ≤ (i : ℝ) / (steps : ℝ) := by positivity

lemma range_tR_le_one {i steps : ℕ} (hi : i ≤ steps) (hs : steps ≠ 0) :
    (i : ℝ) / (steps : ℝ) ≤ 1 := by
  have hs0 : 0 < (steps : ℝ) := by exact_mod_cast Nat.pos_of_ne_zero hs
  rw [div_le_one hs0]
  exact_mod_cast hi

/-- Claim C9: with draws from the documented ranges no algorithm raises — in
particular the hesitation divisor `steps // hesitation_points` is always
positive because `steps ≥ 15` and `hesitation_points ≤ 3` — and for the
degenerate input `start = end = p` the returned path stays clustered at `p`
within the tolerance induced by the noise: exactly at `p` for acceleration and
hesitation, within 15 pixels for drift, within 39 pixels for Bezier, and within
any bound on the (unbounded) Gaussian draws for jitter. -/
theorem generators_total_and_degenerate :
    (∀ {α : Type} (a b : Point) (ctx : α) (d : MovementDraws), d.wf →
      (generate_movement_path a b ctx d).isSome = true) ∧
      (∀ steps hes : ℕ, 15 ≤ steps → 1 ≤ hes → hes ≤ 3 → 0 < steps / hes) ∧
      (∀ {α : Type} (p : Point) (ctx : α) (d : MovementDraws), d.wf →
        ∃ ps, generate_movement_path p p ctx d = some ps ∧
          ∀ w ∈ ps.1,
            (match d with
              | .bezier _ _ _ _ => closeTo w p 39
              | .jitter _ g => ∀ G : ℤ,
                  (∀ i, |(g i).1| ≤ (G : ℚ) ∧ |(g i).2| ≤ (G : ℚ)) → closeTo w p G
              | .acceleration _ => w = p
              | .hesitation _ _ _ => w = p
              | .drift _ _ _ => closeTo w p 15)) := by
  refine ⟨?_, ?_, ?_⟩
  · intro α a b ctx d hw
    cases d with
    | bezier s ox oy noise =>
        obtain ⟨h1, h2, -, -, -⟩ := hw
        simp only [generate_movement_path]
        unfold bezier_movement
        rw [if_neg (by omega)]
        rfl
    | jitter s g =>
        obtain ⟨h1, h2⟩ := hw
        simp only [generate_movement_path]
        unfold jitter_movement
        rw [if_neg (by omega)]
        rfl
    | acceleration s =>
        obtain ⟨h1, h2⟩ := hw
        simp only [generate_movement_path]
        unfold acceleration_movement
        rw [if_neg (by omega)]
        rfl
    | hesitation s hes sleeps =>
        obtain ⟨h1, h2, h3, h4, -⟩ := hw
        have hq1 : 1 ≤ s / hes := (Nat.one_le_div_iff (by omega)).mpr (by omega)
        simp only [generate_movement_path]
        unfold hesitation_movement
        rw [if_neg (by push_neg; exact ⟨by omega, by omega⟩)]
        rfl
    | drift s angle mag =>
        obtain ⟨h1, h2, -, -, -, -⟩ := hw
        simp only [generate_movement_path]
        unfold drift_movement
        rw [if_neg (by omega)]
        rfl
  · intro steps hes h1 h2 h3
    exact (Nat.one_le_div_iff (by omega)).mpr (by omega)
  · intro α p ctx d hw
    cases d with
    | bezier s ox oy noise =>
        obtain ⟨h1, h2, hox, hoy, hn⟩ := hw
        have hs : s ≠ 0 := by omega
        simp only [generate_movement_path]
        unfold bezier_movement
        rw [if_neg hs]
        refine ⟨_, rfl, ?_⟩
        intro w hmem
        obtain ⟨i, hi, rfl⟩ := mem_map_range hmem
        exact bezier_degenerate_close hox hoy (range_t_nonneg i s)
          (range_t_le_one hi hs) (hn i).1 (hn i).2
    | jitter s g =>
        obtain ⟨h1, h2⟩ := hw
        have hs : s ≠ 0 := by omega
        simp only [generate_movement_path]
        unfold jitter_movement
        rw [if_neg hs]
        refine ⟨_, rfl, ?_⟩
        intro w hmem
        obtain ⟨i, hi, rfl⟩ := mem_map_range hmem
        intro G hG
        have hl : lerp p p ((i : ℚ) / (s : ℚ)) = ((p.1 : ℚ), (p.2 : ℚ)) :=
          lerp_self p _
        constructor
        · apply pyInt_close (c := G)
          rw [hl, add_sub_cancel_left]
          exact (hG i).1
        · apply pyInt_close (c := G)
          rw [hl, add_sub_cancel_left]
          exact (hG i).2
    | acceleration s =>
        obtain ⟨h1, h2⟩ := hw
        have hs : s ≠ 0 := by omega
        simp only [generate_movement_path]
        unfold acceleration_movement
        rw [if_neg hs]
        refine ⟨_, rfl, ?_⟩
        intro w hmem
        obtain ⟨i, hi, rfl⟩ := mem_map_range hmem
        show (pyInt ((lerp p p (ease_in_out ((i : ℚ) / (s : ℚ)))).1),
          pyInt ((lerp p p (ease_in_out ((i : ℚ) / (s : ℚ)))).2)) = p
        rw [lerp_self]
        simp [pyInt_intCast]
    | hesitation s hes sleeps =>
        obtain ⟨h1, h2, h3, h4, -⟩ := hw
        have hq1 : 1 ≤ s / hes := (Nat.one_le_div_iff (by omega)).mpr (by omega)
        simp only [generate_movement_path]
        unfold hesitation_movement
        rw [if_neg (by push_neg; exact ⟨by omega, by omega⟩)]
        refine ⟨_, rfl, ?_⟩
        intro w hmem
        obtain ⟨i, hi, rfl⟩ := mem_map_range hmem
        show (pyInt ((lerp p p ((i : ℚ) / (s : ℚ))).1),
          pyInt ((lerp p p ((i : ℚ) / (s : ℚ))).2)) = p
        rw [lerp_self]
        simp [pyInt_intCast]
    | drift s angle mag =>
        obtain ⟨h1, h2, ha0, ha2, hm5, hm15⟩ := hw
        have hs : s ≠ 0 := by omega
        simp only [generate_movement_path]
        unfold drift_movement
        rw [if_neg hs]
        refine ⟨_, rfl, ?_⟩
        intro w hmem
        obtain ⟨i, hi, rfl⟩ := mem_map_range hmem
        have hl : lerpR p p ((i : ℝ) / (s : ℝ)) = ((p.1 : ℝ), (p.2 : ℝ)) :=
          lerpR_self p _
        have hb := drift_offset_bound angle hm5 hm15 ((i : ℝ) / (s : ℝ))
        constructor
        · apply pyIntR_close (c := 15)
          rw [hl, add_sub_cancel_left]
          push_cast
          exact hb.1
        · apply pyIntR_close (c := 15)
          rw [hl, add_sub_cancel_left]
          push_cast
          exact hb.2

/-- Witness for C9: a concrete acceleration call returns a path, the
hesitation divisor is positive at `steps = 15`, `hesitation_points = 1`, and
the degenerate path at `p = (7, 9)` consists only of `p`. -/
theorem generators_total_and_degenerate_witness :
    (MovementDraws.acceleration 12).wf ∧
      (generate_movement_path ((0 : ℤ), (0 : ℤ)) ((100 : ℤ), (0 : ℤ)) "casual"
        (.acceleration 12)).isSome = true ∧
      (15 ≤ (15 : ℕ) ∧ 1 ≤ (1 : ℕ) ∧ (1 : ℕ) ≤ 3 ∧ 0 < 15 / 1) ∧
      ∃ ps, generate_movement_path ((7 : ℤ), (9 : ℤ)) ((7 : ℤ), (9 : ℤ)) "casual"
          (.acceleration 12) = some ps ∧ ∀ w ∈ ps.1, w = ((7 : ℤ), (9 : ℤ)) := by
  have hw : (MovementDraws.acceleration 12).wf := ⟨by norm_num, by norm_num⟩
  refine ⟨hw, generators_total_and_degenerate.1 _ _ ("casual") _ hw,
    ⟨by norm_num, by norm_num, by norm_num,
      generators_total_and_degenerate.2.1 15 1 (by norm_num) (by norm_num)
        (by norm_num)⟩, ?_⟩
  obtain ⟨ps, hps, hcl⟩ := generators_total_and_degenerate.2.2
    ((7 : ℤ), (9 : ℤ)) "casual" (.acceleration 12) hw
  exact ⟨ps, hps, fun w hmem => hcl w hmem⟩

end RavenAutoClicker
